import Mathlib

/-!
Verification of the MyWebServer repository: a shallow embedding of the
growable byte buffer (src/src/buffer.cpp), the per-connection HTTP state
machine (src/src/httpconn.cpp), the reactor's task bodies
(src/src/webserver.cpp) and the database connection pool
(src/src/sqlconnpool.cpp), with theorems settling the frozen claims about
them.  Bytes are modelled as `Char` (the C++ code stores `char`s), machine
sizes as `Nat`, OS error codes as `Nat` constants, and the interaction with
the kernel (`readv`/`writev` results) as explicit event traces.
-/

set_option maxHeartbeats 1000000

/-! Byte-buffer model (src/src/buffer.cpp) -/

/-- Model of `std::copy(s, s+|s|, l.begin()+pos)`: overwrite `l` at offset `pos`
with the elements of `s`, leaving everything else in place. -/
def overwriteAt (l : List Char) (pos : Nat) (s : List Char) : List Char :=
  l.take pos ++ s ++ l.drop (pos + s.length)

/-- Model of `std::vector::resize(n)`: keep the first `n` elements, pad with `'\0'`. -/
def resizeVec (l : List Char) (n : Nat) : List Char :=
  l.take n ++ List.replicate (n - l.length) (Char.ofNat 0)

/-- The `Buffer` class: backing vector plus read/write cursors. -/
structure Buffer where
  buffer_ : List Char
  readPos_ : Nat
  writePos_ : Nat
deriving DecidableEq, Repr

/-- Model of `Buffer::Buffer(initBufSize)` with the default size 1024. -/
def Buffer.mkDefault : Buffer :=
  { buffer_ := List.replicate 1024 (Char.ofNat 0), readPos_ := 0, writePos_ := 0 }

/-- Model of `Buffer::ReadAbleBytes`: `writePos_ - readPos_`. -/
def Buffer.ReadAbleBytes (b : Buffer) : Nat := b.writePos_ - b.readPos_

/-- Model of `Buffer::WriteAbleBytes`: `buffer_.size() - writePos_`. -/
def Buffer.WriteAbleBytes (b : Buffer) : Nat := b.buffer_.length - b.writePos_

/-- Model of `Buffer::PrePendBytes`: `readPos_`. -/
def Buffer.PrePendBytes (b : Buffer) : Nat := b.readPos_

/-- The readable region `[readPos_, writePos_)` as a byte list
(what `Peek()`..`Peek()+ReadAbleBytes()` denotes). -/
def Buffer.readableList (b : Buffer) : List Char :=
  (b.buffer_.drop b.readPos_).take (b.writePos_ - b.readPos_)

/-- Model of `Buffer::MakeSpace_(len)`: grow the vector to `writePos_ + len` when even
reclaiming the prependable region would not suffice, otherwise compact the
readable region to offset 0. -/
def Buffer.MakeSpace_ (len : Nat) (b : Buffer) : Buffer :=
  if b.WriteAbleBytes + b.PrePendBytes < len then
    { b with buffer_ := resizeVec b.buffer_ (b.writePos_ + len) }
  else
    let readable := b.ReadAbleBytes
    { buffer_ :=
        (b.buffer_.drop b.readPos_).take readable ++ b.buffer_.drop readable,
      readPos_ := 0,
      writePos_ := readable }

/-- Model of `Buffer::RetrieveAll()`: reset both cursors to 0. -/
def Buffer.RetrieveAll (b : Buffer) : Buffer :=
  { b with readPos_ := 0, writePos_ := 0 }

/-- Model of `Buffer::Retrieve(len)`: advance `readPos_` by `len` when strictly less
than the readable length, otherwise `RetrieveAll()`. -/
def Buffer.Retrieve (len : Nat) (b : Buffer) : Buffer :=
  if len < b.ReadAbleBytes then { b with readPos_ := b.readPos_ + len }
  else b.RetrieveAll

/-- Model of `Buffer::RetrieveAllToStr()`: snapshot the readable region, then reset. -/
def Buffer.RetrieveAllToStr (b : Buffer) : List Char × Buffer :=
  (b.readableList, b.RetrieveAll)

/-- Model of `Buffer::EnsureWriteable(len)`: call `MakeSpace_` only when the writable
region is too small. -/
def Buffer.EnsureWriteable (len : Nat) (b : Buffer) : Buffer :=
  if b.WriteAbleBytes < len then b.MakeSpace_ len else b

/-- Model of `Buffer::HasWritten(len)`: advance the write cursor. -/
def Buffer.HasWritten (len : Nat) (b : Buffer) : Buffer :=
  { b with writePos_ := b.writePos_ + len }

/-- Model of `Buffer::Append(str, len)`: ensure space, copy in at `BeginWrite()`,
advance the write cursor. -/
def Buffer.Append (s : List Char) (b : Buffer) : Buffer :=
  let b1 := b.EnsureWriteable s.length
  ({ b1 with buffer_ := overwriteAt b1.buffer_ b1.writePos_ s }).HasWritten s.length

/-- Model of `Buffer::ReadFd` restricted to a successful `readv` that delivered the
bytes `s`: the scatter read fills the writable region first and the on-stack
fallback with the rest; if everything fits only the write cursor moves,
otherwise the buffer is marked full and the overflow is `Append`ed. -/
def Buffer.ReadFd (s : List Char) (b : Buffer) : Buffer :=
  let writeable := b.WriteAbleBytes
  if s.length ≤ writeable then
    { b with buffer_ := overwriteAt b.buffer_ b.writePos_ s,
             writePos_ := b.writePos_ + s.length }
  else
    let bFull : Buffer :=
      { b with buffer_ := overwriteAt b.buffer_ b.writePos_ (s.take writeable),
               writePos_ := b.buffer_.length }
    bFull.Append (s.drop writeable)

/-- The cursor invariant of the claims: `readPos_ ≤ writePos_ ≤ size`. -/
def BufInv (b : Buffer) : Prop :=
  b.readPos_ ≤ b.writePos_ ∧ b.writePos_ ≤ b.buffer_.length

instance (b : Buffer) : Decidable (BufInv b) := by
  unfold BufInv; infer_instance

/-! Buffer lemmas -/

theorem overwriteAt_length {l s : List Char} {pos : Nat}
    (h : pos + s.length ≤ l.length) :
    (overwriteAt l pos s).length = l.length := by
  simp only [overwriteAt, List.length_append, List.length_take, List.length_drop]
  omega

theorem readable_overwrite {l s : List Char} {r w : Nat}
    (hrw : r ≤ w) (hwl : w ≤ l.length) (_hfit : w + s.length ≤ l.length) :
    ((overwriteAt l w s).drop r).take (w + s.length - r) =
      (l.drop r).take (w - r) ++ s := by
  have hTakeLen : (l.take w).length = w := List.length_take_of_le hwl
  have h1 : (overwriteAt l w s).drop r
      = (l.take w).drop r ++ (s ++ l.drop (w + s.length)) := by
    simp only [overwriteAt, List.append_assoc]
    rw [List.drop_append_of_le_length (by omega)]
  have hDropLen : ((l.take w).drop r).length = w - r := by
    simp [hTakeLen]
  rw [h1, List.take_append_eq_append_take, hDropLen,
      List.take_of_length_le (by rw [hDropLen]; omega)]
  have he : w + s.length - r - (w - r) = s.length := by omega
  rw [he, List.take_append_of_le_length (le_refl s.length),
      List.take_of_length_le (le_refl s.length), List.drop_take]

/-- The core of `Append` after `EnsureWriteable`: copy at `BeginWrite()`
then `HasWritten`. -/
theorem appendCore_spec (s : List Char) (b1 : Buffer) (hI : BufInv b1)
    (hW : s.length ≤ b1.WriteAbleBytes) :
    BufInv (({ b1 with buffer_ := overwriteAt b1.buffer_ b1.writePos_ s
             }).HasWritten s.length) ∧
    (({ b1 with buffer_ := overwriteAt b1.buffer_ b1.writePos_ s
      }).HasWritten s.length).readableList = b1.readableList ++ s := by
  obtain ⟨h1, h2⟩ := hI
  have hfit : b1.writePos_ + s.length ≤ b1.buffer_.length := by
    simp only [Buffer.WriteAbleBytes] at hW
    omega
  refine ⟨⟨?_, ?_⟩, ?_⟩
  · simp only [Buffer.HasWritten]
    omega
  · simp only [Buffer.HasWritten]
    rw [overwriteAt_length hfit]
    exact hfit
  · simp only [Buffer.HasWritten, Buffer.readableList]
    exact readable_overwrite h1 h2 hfit

/-- Lemma: `MakeSpace_` keeps the invariant, keeps the readable bytes, and when the
incoming writable region was too small guarantees `len` writable bytes. -/
theorem MakeSpace_spec (len : Nat) (b : Buffer) (hInv : BufInv b) :
    BufInv (b.MakeSpace_ len) ∧
    (b.MakeSpace_ len).readableList = b.readableList ∧
    len ≤ (b.MakeSpace_ len).WriteAbleBytes := by
  obtain ⟨h1, h2⟩ := hInv
  unfold Buffer.MakeSpace_
  by_cases hc : b.WriteAbleBytes + b.PrePendBytes < len
  · simp only [hc, if_true]
    have hc' : b.buffer_.length - b.writePos_ + b.readPos_ < len := by
      simpa only [Buffer.WriteAbleBytes, Buffer.PrePendBytes] using hc
    have hgrow : b.buffer_.length ≤ b.writePos_ + len := by omega
    have hres : resizeVec b.buffer_ (b.writePos_ + len)
        = b.buffer_ ++ List.replicate (b.writePos_ + len - b.buffer_.length) (Char.ofNat 0) := by
      simp only [resizeVec]
      rw [List.take_of_length_le hgrow]
    refine ⟨⟨h1, ?_⟩, ?_, ?_⟩
    · simp only [Buffer.HasWritten, hres, List.length_append, List.length_replicate]
      omega
    · simp only [Buffer.readableList, hres]
      rw [List.drop_append_of_le_length (by omega),
          List.take_append_of_le_length (by simp only [List.length_drop]; omega)]
    · simp only [Buffer.WriteAbleBytes, hres, List.length_append, List.length_replicate]
      omega
  · simp only [hc, if_false]
    have hcase : len ≤ b.buffer_.length - b.writePos_ + b.readPos_ := by
      have := le_of_not_lt hc
      simpa only [Buffer.WriteAbleBytes, Buffer.PrePendBytes] using this
    have hreadlen : ((b.buffer_.drop b.readPos_).take b.ReadAbleBytes).length
        = b.ReadAbleBytes := by
      simp only [Buffer.ReadAbleBytes, List.length_take, List.length_drop]
      omega
    refine ⟨⟨Nat.zero_le _, ?_⟩, ?_, ?_⟩
    · simp only [List.length_append, List.length_take, List.length_drop,
        Buffer.ReadAbleBytes]
      omega
    · simp only [Buffer.readableList, Nat.sub_zero, List.drop_zero]
      rw [List.take_append_of_le_length (le_of_eq hreadlen.symm)]
      rw [List.take_of_length_le (le_of_eq hreadlen)]
      simp only [Buffer.ReadAbleBytes]
    · simp only [Buffer.WriteAbleBytes, List.length_append, List.length_take,
        List.length_drop, Buffer.ReadAbleBytes]
      omega

/-- Lemma: `EnsureWriteable` keeps the invariant and the readable bytes and
guarantees at least `len` writable bytes. -/
theorem EnsureWriteable_spec (len : Nat) (b : Buffer) (hInv : BufInv b) :
    BufInv (b.EnsureWriteable len) ∧
    (b.EnsureWriteable len).readableList = b.readableList ∧
    len ≤ (b.EnsureWriteable len).WriteAbleBytes := by
  unfold Buffer.EnsureWriteable
  by_cases hc : b.WriteAbleBytes < len
  · simp only [hc, if_true]
    exact MakeSpace_spec len b hInv
  · rw [if_neg hc]
    exact ⟨hInv, rfl, le_of_not_lt hc⟩

/-- Lemma: `Append` keeps the invariant and appends exactly the new bytes to the
readable region. -/
theorem Append_spec (s : List Char) (b : Buffer) (hInv : BufInv b) :
    BufInv (b.Append s) ∧
    (b.Append s).readableList = b.readableList ++ s := by
  obtain ⟨hI, hR, hW⟩ := EnsureWriteable_spec s.length b hInv
  have h := appendCore_spec s (b.EnsureWriteable s.length) hI hW
  rw [hR] at h
  exact h

/-- Lemma: `Retrieve` keeps the invariant and drops exactly `len` bytes (clamped)
from the front of the readable region. -/
theorem Retrieve_spec (len : Nat) (b : Buffer) (hInv : BufInv b) :
    BufInv (b.Retrieve len) ∧
    (b.Retrieve len).readableList = b.readableList.drop len := by
  obtain ⟨h1, h2⟩ := hInv
  unfold Buffer.Retrieve
  by_cases hc : len < b.ReadAbleBytes
  · simp only [hc, if_true]
    simp only [Buffer.ReadAbleBytes] at hc
    refine ⟨⟨by dsimp only; omega, by dsimp only; exact h2⟩, ?_⟩
    simp only [Buffer.readableList]
    rw [List.drop_take, List.drop_drop]
    congr 1
    omega
  · simp only [hc, if_false]
    simp only [Buffer.ReadAbleBytes] at hc
    refine ⟨⟨Nat.zero_le _, Nat.zero_le _⟩, ?_⟩
    simp only [Buffer.RetrieveAll, Buffer.readableList]
    have hnil : ((b.buffer_.drop b.readPos_).take (b.writePos_ - b.readPos_)).drop len
        = ([] : List Char) := by
      refine List.drop_eq_nil_iff.2 ?_
      refine le_trans (le_trans (List.length_take_le _ _) ?_) (le_refl len)
      omega
    rw [hnil]
    simp

/-- Lemma: `ReadFd` (successful read of `s`) keeps the invariant and appends `s` to
the readable region. -/
theorem ReadFd_spec (s : List Char) (b : Buffer) (hInv : BufInv b) :
    BufInv (b.ReadFd s) ∧
    (b.ReadFd s).readableList = b.readableList ++ s := by
  obtain ⟨h1, h2⟩ := hInv
  unfold Buffer.ReadFd
  by_cases hc : s.length ≤ b.WriteAbleBytes
  · simp only [hc, if_true]
    have hc' : s.length ≤ b.buffer_.length - b.writePos_ := by
      simpa only [Buffer.WriteAbleBytes] using hc
    exact appendCore_spec s b ⟨h1, h2⟩ hc
  · simp only [hc, if_false]
    have hc' : b.buffer_.length - b.writePos_ < s.length := by
      have := lt_of_not_le hc
      simpa only [Buffer.WriteAbleBytes] using this
    have htk : (s.take b.WriteAbleBytes).length = b.WriteAbleBytes :=
      List.length_take_of_le (by simp only [Buffer.WriteAbleBytes]; omega)
    have hfit : b.writePos_ + (s.take b.WriteAbleBytes).length ≤ b.buffer_.length := by
      rw [htk]
      simp only [Buffer.WriteAbleBytes]
      omega
    have hmidInv : BufInv { b with
        buffer_ := overwriteAt b.buffer_ b.writePos_ (s.take b.WriteAbleBytes),
        writePos_ := b.buffer_.length } := by
      refine ⟨by dsimp only; omega, ?_⟩
      dsimp only
      rw [overwriteAt_length hfit]
    have hmidRead : (Buffer.readableList { b with
        buffer_ := overwriteAt b.buffer_ b.writePos_ (s.take b.WriteAbleBytes),
        writePos_ := b.buffer_.length }) = b.readableList ++ s.take b.WriteAbleBytes := by
      simp only [Buffer.readableList]
      have hmain := readable_overwrite (l := b.buffer_) (s := s.take b.WriteAbleBytes)
        (r := b.readPos_) (w := b.writePos_) h1 h2 hfit
      have heq : b.buffer_.length - b.readPos_
          = b.writePos_ + (s.take b.WriteAbleBytes).length - b.readPos_ := by
        rw [htk]
        simp only [Buffer.WriteAbleBytes]
        omega
      rw [heq]
      exact hmain
    obtain ⟨hAI, hAR⟩ := Append_spec (s.drop b.WriteAbleBytes)
      { b with buffer_ := overwriteAt b.buffer_ b.writePos_ (s.take b.WriteAbleBytes),
               writePos_ := b.buffer_.length } hmidInv
    refine ⟨hAI, ?_⟩
    rw [hAR, hmidRead, List.append_assoc, List.take_append_drop]

/-! Claim C1: buffer operation sequences -/

/-- An externally invocable buffer operation of claim C1. -/
inductive BufOp where
  | append (s : List Char)
  | retrieve (n : Nat)
  | retrieveAll
deriving DecidableEq, Repr

/-- Execute one buffer operation. -/
def applyBufOp (b : Buffer) : BufOp → Buffer
  | .append s => b.Append s
  | .retrieve n => b.Retrieve n
  | .retrieveAll => b.RetrieveAll

/-- Execute a sequence of buffer operations. -/
def runBufOps (ops : List BufOp) (b : Buffer) : Buffer :=
  ops.foldl applyBufOp b

/-- The claim-side reference model: the queue of bytes appended and not yet
retrieved, in append order. -/
def pendingStep (q : List Char) : BufOp → List Char
  | .append s => q ++ s
  | .retrieve n => q.drop n
  | .retrieveAll => []

/-- Reference queue after a sequence of operations. -/
def pendingBytes (ops : List BufOp) : List Char :=
  ops.foldl pendingStep []

theorem applyBufOp_spec (b : Buffer) (op : BufOp) (hInv : BufInv b) :
    BufInv (applyBufOp b op) ∧
    (applyBufOp b op).readableList = pendingStep b.readableList op := by
  cases op with
  | append s => exact Append_spec s b hInv
  | retrieve n => exact Retrieve_spec n b hInv
  | retrieveAll =>
      refine ⟨⟨Nat.le_refl 0, Nat.zero_le _⟩, ?_⟩
      simp [Buffer.RetrieveAll, Buffer.readableList, pendingStep, applyBufOp]

theorem runBufOps_spec (ops : List BufOp) (b : Buffer) (hInv : BufInv b) :
    BufInv (runBufOps ops b) ∧
    (runBufOps ops b).readableList = ops.foldl pendingStep b.readableList := by
  induction ops generalizing b with
  | nil => exact ⟨hInv, rfl⟩
  | cons op rest ih =>
      obtain ⟨hI, hQ⟩ := applyBufOp_spec b op hInv
      obtain ⟨hI2, hQ2⟩ := ih (applyBufOp b op) hI
      refine ⟨hI2, ?_⟩
      simp only [runBufOps, List.foldl_cons] at hQ2 ⊢
      rw [hQ2, hQ]

/-- C1: for every sequence of `Append`/`Retrieve`/`RetrieveAll` operations
executed from a freshly constructed `Buffer`, the cursor invariant
`0 ≤ readPos_ ≤ writePos_ ≤ buffer size` holds after every operation (every
prefix of operations is itself such a sequence), and the readable region
`[readPos_, writePos_)` holds exactly the bytes appended and not yet
retrieved, in append order. -/
theorem buffer_ops_inv_and_content (ops : List BufOp) :
    BufInv (runBufOps ops Buffer.mkDefault) ∧
    (runBufOps ops Buffer.mkDefault).readableList = pendingBytes ops := by
  have hInv : BufInv Buffer.mkDefault := ⟨Nat.le_refl 0, Nat.zero_le _⟩
  have h := runBufOps_spec ops Buffer.mkDefault hInv
  have hread : Buffer.mkDefault.readableList = [] := rfl
  rw [hread] at h
  exact h

/-! Claim C7: Retrieve clamp / RetrieveAll equivalence -/

/-- C7: for every buffer and every `n ≥ ReadAbleBytes()`, `Retrieve n` is the
same operation as `RetrieveAll` (both cursors reset to 0); and for every `n`,
`Retrieve n` never advances the read cursor past the write cursor. -/
theorem retrieve_clamp_equiv_retrieveAll (b : Buffer) (n : Nat) :
    (b.ReadAbleBytes ≤ n → b.Retrieve n = b.RetrieveAll) ∧
    (b.Retrieve n).readPos_ ≤ (b.Retrieve n).writePos_ := by
  constructor
  · intro h
    unfold Buffer.Retrieve
    rw [if_neg (by omega)]
  · unfold Buffer.Retrieve
    by_cases hc : n < b.ReadAbleBytes
    · rw [if_pos hc]
      simp only [Buffer.ReadAbleBytes] at hc
      dsimp only
      omega
    · rw [if_neg hc]
      exact Nat.le_refl 0

/-- Concrete buffer used by the C7 witness. -/
def bufC7 : Buffer := ⟨['a', 'b', 'c'], 1, 3⟩

/-- Witness for C7 at a concrete buffer: `Retrieve 5` (with only 2 readable
bytes) equals `RetrieveAll`, and `Retrieve 1` keeps the cursor order. -/
theorem retrieve_clamp_equiv_retrieveAll_witness :
    (Buffer.ReadAbleBytes bufC7 ≤ 5 ∧ bufC7.Retrieve 5 = bufC7.RetrieveAll) ∧
    (bufC7.Retrieve 1).readPos_ ≤ (bufC7.Retrieve 1).writePos_ :=
  ⟨⟨by decide, (retrieve_clamp_equiv_retrieveAll bufC7 5).1 (by decide)⟩,
   (retrieve_clamp_equiv_retrieveAll bufC7 1).2⟩

/-! Claim C8: EnsureWriteable growth policy -/

/-- Concrete buffer refuting C8 as stated: 6 writable + 2 prependable bytes,
`readPos_ = 2`. -/
def bufC8 : Buffer := ⟨List.replicate 10 'x', 2, 4⟩

/-- Counterexample to C8 as stated: at `bufC8` with `n = 1` the claim's
"otherwise" condition `writable + prependable ≥ n` holds, yet after
`EnsureWriteable 1` the readable region has NOT been compacted to offset 0
(`readPos_` is still 2): when the writable region is already large enough the
code does nothing at all. -/
theorem ensureWriteable_compact_cex :
    ¬ (Buffer.WriteAbleBytes bufC8 + Buffer.PrePendBytes bufC8 < 1) ∧
    (bufC8.EnsureWriteable 1).readPos_ ≠ 0 := by decide

/-- C8 (amended): after `EnsureWriteable n` the writable count is at least
`n` and the readable bytes are unchanged; the growth policy applies only when
the writable region is too small (`writable < n`): then if
`writable + prependable < n` the capacity is extended to `writePos_ + n`
(data kept in place, capacity strictly grows), otherwise the readable region
is compacted to offset 0 with capacity unchanged; when `writable ≥ n` the
buffer is left untouched. -/
theorem ensureWriteable_spec_amended (b : Buffer) (n : Nat) (hInv : BufInv b) :
    n ≤ (b.EnsureWriteable n).WriteAbleBytes ∧
    (b.EnsureWriteable n).readableList = b.readableList ∧
    (b.WriteAbleBytes < n → b.WriteAbleBytes + b.PrePendBytes < n →
      (b.EnsureWriteable n).buffer_.length = b.writePos_ + n ∧
      b.buffer_.length < (b.EnsureWriteable n).buffer_.length ∧
      (b.EnsureWriteable n).readPos_ = b.readPos_ ∧
      (b.EnsureWriteable n).writePos_ = b.writePos_ ∧
      ∃ t, (b.EnsureWriteable n).buffer_ = b.buffer_ ++ t) ∧
    (b.WriteAbleBytes < n → ¬ (b.WriteAbleBytes + b.PrePendBytes < n) →
      (b.EnsureWriteable n).readPos_ = 0 ∧
      (b.EnsureWriteable n).writePos_ = b.ReadAbleBytes ∧
      (b.EnsureWriteable n).buffer_.length = b.buffer_.length) ∧
    (¬ b.WriteAbleBytes < n → b.EnsureWriteable n = b) := by
  obtain ⟨h1, h2⟩ := hInv
  obtain ⟨_, hR, hW⟩ := EnsureWriteable_spec n b ⟨h1, h2⟩
  refine ⟨hW, hR, ?_, ?_, ?_⟩
  · intro hsmall hgrow
    have hgrow' : b.buffer_.length - b.writePos_ + b.readPos_ < n := by
      simpa only [Buffer.WriteAbleBytes, Buffer.PrePendBytes] using hgrow
    have hle : b.buffer_.length ≤ b.writePos_ + n := by omega
    have hres : resizeVec b.buffer_ (b.writePos_ + n)
        = b.buffer_ ++ List.replicate (b.writePos_ + n - b.buffer_.length) (Char.ofNat 0) := by
      simp only [resizeVec]
      rw [List.take_of_length_le hle]
    unfold Buffer.EnsureWriteable Buffer.MakeSpace_
    rw [if_pos hsmall, if_pos hgrow]
    refine ⟨?_, ?_, rfl, rfl, ⟨_, by rw [hres]⟩⟩
    · dsimp only
      rw [hres]
      simp only [List.length_append, List.length_replicate]
      omega
    · dsimp only
      rw [hres]
      simp only [List.length_append, List.length_replicate]
      omega
  · intro hsmall hcomp
    have hcomp' : n ≤ b.buffer_.length - b.writePos_ + b.readPos_ := by
      have := le_of_not_lt hcomp
      simpa only [Buffer.WriteAbleBytes, Buffer.PrePendBytes] using this
    unfold Buffer.EnsureWriteable Buffer.MakeSpace_
    rw [if_pos hsmall, if_neg hcomp]
    refine ⟨rfl, rfl, ?_⟩
    dsimp only
    simp only [List.length_append, List.length_take, List.length_drop,
      Buffer.ReadAbleBytes]
    omega
  · intro hbig
    unfold Buffer.EnsureWriteable
    rw [if_neg hbig]

/-- Concrete buffer exercising the pure-growth branch of C8's witness:
1 writable byte, 1 prependable byte. -/
def bufC8g : Buffer := ⟨List.replicate 4 'x', 1, 3⟩

/-- Witness for the amended C8: growth branch at `bufC8g` with `n = 5`
(capacity becomes `writePos_ + 5 = 8`), plus the untouched branch at `bufC8`
with `n = 1`. -/
theorem ensureWriteable_spec_amended_witness :
    ((bufC8g.EnsureWriteable 5).buffer_.length = bufC8g.writePos_ + 5 ∧
      5 ≤ (bufC8g.EnsureWriteable 5).WriteAbleBytes) ∧
    bufC8.EnsureWriteable 1 = bufC8 :=
  ⟨⟨((ensureWriteable_spec_amended bufC8g 5 (by decide)).2.2.1
        (by decide) (by decide)).1,
    (ensureWriteable_spec_amended bufC8g 5 (by decide)).1⟩,
   (ensureWriteable_spec_amended bufC8 1 (by decide)).2.2.2.2 (by decide)⟩

/-! OS constants (Linux values used by the code) -/

/-- Model of `EAGAIN`. -/
def eAGAIN : Nat := 11

/-- Model of `EWOULDBLOCK` (same value as `EAGAIN` on Linux). -/
def eWOULDBLOCK : Nat := 11

/-- Model of `EINTR`. -/
def eINTR : Nat := 4

/-- Model of `EPOLLIN`. -/
def ePOLLIN : Nat := 1

/-- Model of `EPOLLOUT`. -/
def ePOLLOUT : Nat := 4

/-- Model of `EPOLLRDHUP`. -/
def ePOLLRDHUP : Nat := 8192

/-- Model of `EPOLLONESHOT`. -/
def ePOLLONESHOT : Nat := 1073741824

/-- Model of `EPOLLET`. -/
def ePOLLET : Nat := 2147483648

/-- Model of `WebServer::connEvent_` after `InitEventMode_`:
`EPOLLONESHOT | EPOLLRDHUP | EPOLLET`. -/
def connEvent_ : Nat := (ePOLLONESHOT ||| ePOLLRDHUP) ||| ePOLLET

/-! HttpConn model (src/src/httpconn.cpp) -/

/-- Per-connection state.  `iov0base`/`iov1base` are byte offsets standing
for the `iovec` base pointers (into the write buffer, resp. the mapped
file); `file_ = some sz` models a live `mmap` of `sz` bytes;
`userCount_` models the process-wide live-connection counter as seen
through this connection's operations; `munmapCnt` counts `munmap` calls
and `dbCalls` counts pooled-database uses (observation counters for the
exactly-once claims). -/
structure HttpConn where
  fd_ : Int
  isClose_ : Bool
  isKeepAlive_ : Bool
  method_ : List Char
  path_ : List Char
  version_ : List Char
  readBuff_ : Buffer
  writeBuff_ : Buffer
  iovCnt_ : Nat
  iov0base : Nat
  iov0len : Nat
  iov1base : Nat
  iov1len : Nat
  file_ : Option Nat
  fileStatSize : Nat
  userCount_ : Int
  munmapCnt : Nat
  dbCalls : Nat
deriving DecidableEq, Repr

/-- Model of `HttpConn::ToWriteBytes()`: `iov_[0].iov_len + iov_[1].iov_len`. -/
def HttpConn.ToWriteBytes (c : HttpConn) : Nat := c.iov0len + c.iov1len

/-- Model of `HttpConn::Init(fd, addr)`: bump the user counter, clear both buffers,
reset the HTTP state.  (`iov_`/`iovCnt_`/counters are not touched, as in the
source.) -/
def HttpConn.Init (fd : Int) (c : HttpConn) : HttpConn :=
  { c with userCount_ := c.userCount_ + 1,
           fd_ := fd,
           writeBuff_ := c.writeBuff_.RetrieveAll,
           readBuff_ := c.readBuff_.RetrieveAll,
           isClose_ := false,
           isKeepAlive_ := false,
           file_ := none,
           fileStatSize := 0 }

/-- Model of `HttpConn::Close()`: `munmap` the mapping if present, then close the
socket (once) and decrement the user counter. -/
def HttpConn.Close (c : HttpConn) : HttpConn :=
  let c1 := if c.file_.isSome then
      { c with file_ := none, munmapCnt := c.munmapCnt + 1 }
    else c
  if ¬ c1.isClose_ then
    { c1 with isClose_ := true, userCount_ := c1.userCount_ - 1 }
  else c1

theorem close_close (c : HttpConn) :
    HttpConn.Close (HttpConn.Close c) = HttpConn.Close c := by
  unfold HttpConn.Close
  by_cases hf : c.file_.isSome <;> by_cases hcl : c.isClose_ <;>
    simp [hf, hcl]

theorem close_iterate (c : HttpConn) (k : Nat) :
    HttpConn.Close^[k + 1] c = HttpConn.Close c := by
  induction k with
  | zero => rfl
  | succ n ih => rw [Function.iterate_succ_apply', ih, close_close]

theorem close_once_effect (c : HttpConn) (hOpen : c.isClose_ = false) :
    (HttpConn.Close c).userCount_ = c.userCount_ - 1 ∧
    (HttpConn.Close c).munmapCnt
      = c.munmapCnt + (if c.file_.isSome then 1 else 0) := by
  unfold HttpConn.Close
  by_cases hf : c.file_.isSome <;> simp [hf, hOpen]

/-- C9: `Close` is idempotent — a second `Close` leaves the state (socket
flag, mapping, and all counters) exactly as one `Close` does; any positive
number `k+1` of `Close` calls on an initialized (open) connection decrements
the live-connection counter exactly once, and performs exactly one `munmap`
when a mapping was present (none otherwise). -/
theorem close_idempotent_exactly_once (c : HttpConn) (k : Nat)
    (hOpen : c.isClose_ = false) :
    HttpConn.Close (HttpConn.Close c) = HttpConn.Close c ∧
    (HttpConn.Close^[k + 1] c).userCount_ = c.userCount_ - 1 ∧
    (HttpConn.Close^[k + 1] c).munmapCnt
      = c.munmapCnt + (if c.file_.isSome then 1 else 0) := by
  obtain ⟨hu, hm⟩ := close_once_effect c hOpen
  exact ⟨close_close c, by rw [close_iterate]; exact hu,
         by rw [close_iterate]; exact hm⟩

/-- Concrete open connection with a live mapping, for the C9 witness. -/
def connC9 : HttpConn :=
  { fd_ := 5, isClose_ := false, isKeepAlive_ := true,
    method_ := [], path_ := [], version_ := [],
    readBuff_ := ⟨[], 0, 0⟩, writeBuff_ := ⟨[], 0, 0⟩,
    iovCnt_ := 2, iov0base := 0, iov0len := 0, iov1base := 0, iov1len := 0,
    file_ := some 7, fileStatSize := 7,
    userCount_ := 3, munmapCnt := 0, dbCalls := 0 }

/-- Witness for C9: three `Close` calls on `connC9` behave as one — the user
counter drops from 3 to 2 exactly once and the mapping is unmapped exactly
once. -/
theorem close_idempotent_exactly_once_witness :
    HttpConn.Close (HttpConn.Close connC9) = HttpConn.Close connC9 ∧
    (HttpConn.Close^[3] connC9).userCount_ = connC9.userCount_ - 1 ∧
    (HttpConn.Close^[3] connC9).munmapCnt
      = connC9.munmapCnt + (if connC9.file_.isSome then 1 else 0) :=
  close_idempotent_exactly_once connC9 2 rfl

/-! Claim C4: partial scatter/gather write adjustment
(body of the adjustment block in `HttpConn::Write`) -/

/-- The per-iteration `iov_` adjustment of `HttpConn::Write` after `writev`
accepted `len` bytes: subtract from segment 0 first, then segment 1; when the
write crosses the end of segment 0, consume the whole output buffer
(`RetrieveAll`) exactly when segment 0 still had bytes; otherwise advance
segment 0 and `Retrieve(len)` from the output buffer. -/
def HttpConn.writeStep (c : HttpConn) (len : Nat) : HttpConn :=
  if c.iov0len < len then
    let c1 := { c with iov1base := c.iov1base + (len - c.iov0len),
                       iov1len := c.iov1len - (len - c.iov0len) }
    if c.iov0len ≠ 0 then
      { c1 with writeBuff_ := c1.writeBuff_.RetrieveAll, iov0len := 0 }
    else c1
  else
    { c with iov0base := c.iov0base + len,
             iov0len := c.iov0len - len,
             writeBuff_ := c.writeBuff_.Retrieve len }

theorem writeStep_spec (c : HttpConn) (len : Nat)
    (hlt : len < c.ToWriteBytes)
    (hback : c.writeBuff_.ReadAbleBytes = c.iov0len) :
    (c.writeStep len).iov0len = c.iov0len - min len c.iov0len ∧
    (c.writeStep len).iov1len = c.iov1len - (len - min len c.iov0len) ∧
    (len ≤ c.iov0len → (c.writeStep len).iov0base = c.iov0base + len) ∧
    (c.writeStep len).iov1base = c.iov1base + (len - min len c.iov0len) ∧
    (c.writeStep len).ToWriteBytes = c.ToWriteBytes - len ∧
    (c.writeStep len).writeBuff_.ReadAbleBytes = (c.writeStep len).iov0len ∧
    c.writeBuff_.ReadAbleBytes - (c.writeStep len).writeBuff_.ReadAbleBytes
      = min len c.iov0len := by
  simp only [HttpConn.ToWriteBytes] at hlt ⊢
  unfold HttpConn.writeStep
  by_cases hcross : c.iov0len < len
  · rw [if_pos hcross]
    by_cases hnz : c.iov0len ≠ 0
    · rw [if_pos hnz]
      simp only [Buffer.RetrieveAll, Buffer.ReadAbleBytes] at hback ⊢
      repeat' apply And.intro
      all_goals try intro h
      all_goals first
      | trivial
      | omega
    · rw [if_neg hnz]
      push_neg at hnz
      simp only [Buffer.ReadAbleBytes] at hback ⊢
      repeat' apply And.intro
      all_goals try intro h
      all_goals first
      | trivial
      | omega
  · rw [if_neg hcross]
    push_neg at hcross
    unfold Buffer.Retrieve
    by_cases hfull : len < c.writeBuff_.ReadAbleBytes
    · rw [if_pos hfull]
      simp only [Buffer.ReadAbleBytes] at hback hfull ⊢
      repeat' apply And.intro
      all_goals try intro h
      all_goals first
      | trivial
      | omega
    · rw [if_neg hfull]
      simp only [Buffer.RetrieveAll, Buffer.ReadAbleBytes] at hback hfull ⊢
      repeat' apply And.intro
      all_goals try intro h
      all_goals first
      | trivial
      | omega

/-- Predicate `lensOk c lens`: each successive simulated `writev` result is a partial
write (`0 < len < ToWriteBytes`) of the state it meets. -/
def lensOk (c : HttpConn) : List Nat → Prop
  | [] => True
  | len :: rest => 0 < len ∧ len < c.ToWriteBytes ∧ lensOk (c.writeStep len) rest

/-- Fold a sequence of partial-write adjustments. -/
def stepMany (c : HttpConn) (lens : List Nat) : HttpConn :=
  lens.foldl HttpConn.writeStep c

theorem stepMany_spec (lens : List Nat) (c : HttpConn)
    (hback : c.writeBuff_.ReadAbleBytes = c.iov0len)
    (hok : lensOk c lens) :
    (stepMany c lens).ToWriteBytes = c.ToWriteBytes - lens.sum ∧
    (stepMany c lens).writeBuff_.ReadAbleBytes = (stepMany c lens).iov0len := by
  induction lens generalizing c with
  | nil => exact ⟨by simp [stepMany], hback⟩
  | cons len rest ih =>
      obtain ⟨h0, hlt, hrest⟩ := hok
      obtain ⟨_, _, _, _, htot, hinv, _⟩ := writeStep_spec c len hlt hback
      obtain ⟨ih1, ih2⟩ := ih (c.writeStep len) hinv hrest
      refine ⟨?_, ih2⟩
      simp only [stepMany, List.foldl_cons, List.sum_cons] at ih1 ⊢
      rw [ih1, htot]
      have : len < c.ToWriteBytes := hlt
      omega

/-- C4: for every partial scatter/gather write of `len` bytes
(`0 < len < iov0len + iov1len`) with the output buffer backing segment 0
(`ReadAbleBytes = iov0len`), the adjustment in `HttpConn::Write` subtracts
`len` first from segment 0 and only the remainder from segment 1 (advancing
the base pointers accordingly), decreases the total remaining byte count by
exactly `len`, keeps the output buffer in sync with segment 0 (so the
header bytes are marked consumed exactly as segment 0 shrinks — fully, and
only once, when it reaches zero length), and does so across any sequence of
repeated partial writes. -/
theorem write_partial_adjust (c : HttpConn) (len : Nat)
    (_h0 : 0 < len) (hlt : len < c.ToWriteBytes)
    (hback : c.writeBuff_.ReadAbleBytes = c.iov0len) :
    (c.writeStep len).iov0len = c.iov0len - min len c.iov0len ∧
    (c.writeStep len).iov1len = c.iov1len - (len - min len c.iov0len) ∧
    (len ≤ c.iov0len → (c.writeStep len).iov0base = c.iov0base + len) ∧
    (c.writeStep len).iov1base = c.iov1base + (len - min len c.iov0len) ∧
    (c.writeStep len).ToWriteBytes = c.ToWriteBytes - len ∧
    (c.writeStep len).writeBuff_.ReadAbleBytes = (c.writeStep len).iov0len ∧
    c.writeBuff_.ReadAbleBytes - (c.writeStep len).writeBuff_.ReadAbleBytes
      = min len c.iov0len ∧
    (∀ lens, lensOk c lens →
      (stepMany c lens).ToWriteBytes = c.ToWriteBytes - lens.sum) := by
  obtain ⟨a1, a2, a3, a4, a5, a6, a7⟩ := writeStep_spec c len hlt hback
  exact ⟨a1, a2, a3, a4, a5, a6, a7,
         fun lens hok => (stepMany_spec lens c hback hok).1⟩

/-- Concrete connection for the C4 witness: a 4-byte header in the output
buffer backing segment 0 and a 10-byte file segment. -/
def connC4 : HttpConn :=
  { fd_ := 6, isClose_ := false, isKeepAlive_ := true,
    method_ := [], path_ := [], version_ := [],
    readBuff_ := ⟨[], 0, 0⟩,
    writeBuff_ := ⟨['H', 'D', 'R', ':'], 0, 4⟩,
    iovCnt_ := 2, iov0base := 0, iov0len := 4, iov1base := 0, iov1len := 10,
    file_ := some 10, fileStatSize := 10,
    userCount_ := 1, munmapCnt := 0, dbCalls := 0 }

/-- Witness for C4 at `connC4` with a partial write of 6 bytes (crossing
segment 0), plus the repeated-partial-write total for the sequence `[2, 6]`. -/
theorem write_partial_adjust_witness :
    (connC4.writeStep 6).iov0len = 0 ∧
    (connC4.writeStep 6).iov1len = 8 ∧
    (connC4.writeStep 6).ToWriteBytes = connC4.ToWriteBytes - 6 ∧
    (connC4.writeStep 6).writeBuff_.ReadAbleBytes = 0 ∧
    (stepMany connC4 [2, 6]).ToWriteBytes = connC4.ToWriteBytes - 8 := by
  have h := write_partial_adjust connC4 6 (by decide) (by decide) (by decide)
  refine ⟨?_, ?_, h.2.2.2.2.1, ?_, h.2.2.2.2.2.2.2 [2, 6] ?_⟩
  · rw [h.1]; decide
  · rw [h.2.1]; decide
  · rw [h.2.2.2.2.2.1, h.1]; decide
  · exact ⟨by decide, by decide, by decide, by decide, trivial⟩

/-! Claim C3: HttpConn::Read -/

/-- One `readv` outcome delivered by the kernel: either a successful read of
the bytes `s` (`s = []` models `readv` returning 0, i.e. end-of-file; errno
is not written in that case) or a failure with error code `e`. -/
inductive RdEv where
  | data (s : List Char)
  | err (e : Nat)
deriving DecidableEq, Repr


/-- The loop of `HttpConn::Read(saveErrno)` over a trace of `readv`
outcomes: accumulate bytes via `Buffer::ReadFd`; on a non-positive result
break on `EAGAIN`/`EWOULDBLOCK`, retry on `EINTR`, return `-1` when nothing
was read yet, else break; in level-triggered mode read once.  An exhausted
trace models leaving the loop with the running total. -/
def readLoop (isET : Bool) (errno acc : Nat) (b : Buffer) :
    List RdEv → Int × Nat × Buffer
  | [] => ((acc : Int), errno, b)
  | RdEv.data s :: evs =>
      if s.length = 0 then
        if errno = eAGAIN ∨ errno = eWOULDBLOCK then ((acc : Int), errno, b)
        else if errno = eINTR then readLoop isET errno acc b evs
        else if acc = 0 then (-1, errno, b)
        else ((acc : Int), errno, b)
      else
        if isET then readLoop isET errno (acc + s.length) (b.ReadFd s) evs
        else (((acc + s.length : Nat) : Int), errno, b.ReadFd s)
  | RdEv.err e :: evs =>
      if e = eAGAIN ∨ e = eWOULDBLOCK then ((acc : Int), e, b)
      else if e = eINTR then readLoop isET e acc b evs
      else if acc = 0 then (-1, e, b)
      else ((acc : Int), e, b)

/-- Model of `HttpConn::Read(saveErrno)`: run the loop on the input buffer, starting
from the caller's current `saveErrno` value. -/
def HttpConn.Read (isET : Bool) (saveErrno : Nat) (evs : List RdEv)
    (c : HttpConn) : Int × Nat × HttpConn :=
  ((readLoop isET saveErrno 0 c.readBuff_ evs).1,
   (readLoop isET saveErrno 0 c.readBuff_ evs).2.1,
   { c with readBuff_ := (readLoop isET saveErrno 0 c.readBuff_ evs).2.2 })

/-- Does the trace contain a real error event (one that is not
`EAGAIN`/`EWOULDBLOCK`/`EINTR`)? -/
def hasRealError (evs : List RdEv) : Bool :=
  evs.any fun ev =>
    match ev with
    | RdEv.err e => !(e == eAGAIN || e == eWOULDBLOCK || e == eINTR)
    | RdEv.data _ => false

theorem readLoop_cases (isET : Bool) (evs : List RdEv) :
    ∀ (e0 acc : Nat) (b : Buffer), BufInv b →
      ((readLoop isET e0 acc b evs).1 = -1 →
        acc = 0 ∧ (readLoop isET e0 acc b evs).2.2 = b ∧
        (readLoop isET e0 acc b evs).2.1 ≠ eAGAIN ∧
        (readLoop isET e0 acc b evs).2.1 ≠ eWOULDBLOCK ∧
        (readLoop isET e0 acc b evs).2.1 ≠ eINTR) ∧
      BufInv (readLoop isET e0 acc b evs).2.2 ∧
      ((readLoop isET e0 acc b evs).1 ≠ -1 →
        ∃ s, (readLoop isET e0 acc b evs).2.2.readableList
               = b.readableList ++ s ∧
             (readLoop isET e0 acc b evs).1 = ((acc + s.length : Nat) : Int)) := by
  induction evs with
  | nil =>
      intro e0 acc b hInv
      refine ⟨?_, hInv, ?_⟩
      · intro h
        exfalso
        have hh : (acc : Int) = -1 := h
        omega
      · intro _
        exact ⟨[], by simp [readLoop], by simp [readLoop]⟩
  | cons ev rest ih =>
      intro e0 acc b hInv
      cases ev with
      | data s =>
          by_cases hs : s.length = 0
          · simp only [readLoop]
            rw [if_pos hs]
            by_cases hag : e0 = eAGAIN ∨ e0 = eWOULDBLOCK
            · rw [if_pos hag]
              refine ⟨?_, hInv, ?_⟩
              · intro h
                exfalso
                have hh : (acc : Int) = -1 := h
                omega
              · intro _
                exact ⟨[], by simp, by simp⟩
            · rw [if_neg hag]
              by_cases hintr : e0 = eINTR
              · rw [if_pos hintr]
                exact ih e0 acc b hInv
              · rw [if_neg hintr]
                by_cases hz : acc = 0
                · rw [if_pos hz]
                  refine ⟨?_, hInv, ?_⟩
                  · intro _
                    refine ⟨hz, rfl, ?_, ?_, ?_⟩
                    · exact fun h => hag (Or.inl h)
                    · exact fun h => hag (Or.inr h)
                    · exact hintr
                  · intro h
                    exact absurd rfl h
                · rw [if_neg hz]
                  refine ⟨?_, hInv, ?_⟩
                  · intro h
                    exfalso
                    have hh : (acc : Int) = -1 := h
                    omega
                  · intro _
                    exact ⟨[], by simp, by simp⟩
          · obtain ⟨hI', hR'⟩ := ReadFd_spec s b hInv
            simp only [readLoop]
            rw [if_neg hs]
            by_cases het : isET = true
            · rw [if_pos het]
              obtain ⟨ih1, ihInv, ih2⟩ := ih e0 (acc + s.length) (b.ReadFd s) hI'
              refine ⟨?_, ihInv, ?_⟩
              · intro h
                exfalso
                have := (ih1 h).1
                omega
              · intro h
                obtain ⟨s', hrd, hlen⟩ := ih2 h
                refine ⟨s ++ s', ?_, ?_⟩
                · rw [hrd, hR', List.append_assoc]
                · rw [hlen]
                  congr 1
                  simp only [List.length_append]
                  omega
            · rw [if_neg het]
              refine ⟨?_, hI', ?_⟩
              · intro h
                exfalso
                have hh : ((acc + s.length : Nat) : Int) = -1 := h
                omega
              · intro _
                exact ⟨s, hR', rfl⟩
      | err e =>
          simp only [readLoop]
          by_cases hag : e = eAGAIN ∨ e = eWOULDBLOCK
          · rw [if_pos hag]
            refine ⟨?_, hInv, ?_⟩
            · intro h
              exfalso
              have hh : (acc : Int) = -1 := h
              omega
            · intro _
              exact ⟨[], by simp, by simp⟩
          · rw [if_neg hag]
            by_cases hintr : e = eINTR
            · rw [if_pos hintr]
              exact ih e acc b hInv
            · rw [if_neg hintr]
              by_cases hz : acc = 0
              · rw [if_pos hz]
                refine ⟨?_, hInv, ?_⟩
                · intro _
                  refine ⟨hz, rfl, ?_, ?_, ?_⟩
                  · exact fun h => hag (Or.inl h)
                  · exact fun h => hag (Or.inr h)
                  · exact hintr
                · intro h
                  exact absurd rfl h
              · rw [if_neg hz]
                refine ⟨?_, hInv, ?_⟩
                · intro h
                  exfalso
                  have hh : (acc : Int) = -1 := h
                  omega
                · intro _
                  exact ⟨[], by simp, by simp⟩

/-- C3 (amended): `HttpConn::Read` returns `-1` only if zero bytes were
obtained over the whole call (input buffer unchanged) and the loop stopped on
a non-positive `readv` outcome whose decisive errno value — the error's code,
or, for end-of-file, the caller's carried-in `saveErrno` — is none of
`EAGAIN`/`EWOULDBLOCK`/`EINTR` (so a true error, but also a bare end-of-file
can yield `-1`); it retries on `EINTR`, stops on `EAGAIN`/`EWOULDBLOCK`
returning the non-negative total, and otherwise returns the non-negative
total number of bytes appended to the input buffer. -/
theorem read_behavior (isET : Bool) (e0 : Nat) (evs : List RdEv)
    (c : HttpConn) (hInv : BufInv c.readBuff_) :
    ((HttpConn.Read isET e0 evs c).1 = -1 →
       (HttpConn.Read isET e0 evs c).2.2.readBuff_ = c.readBuff_ ∧
       (HttpConn.Read isET e0 evs c).2.1 ≠ eAGAIN ∧
       (HttpConn.Read isET e0 evs c).2.1 ≠ eWOULDBLOCK ∧
       (HttpConn.Read isET e0 evs c).2.1 ≠ eINTR) ∧
    ((HttpConn.Read isET e0 evs c).1 ≠ -1 →
       ∃ s, (HttpConn.Read isET e0 evs c).2.2.readBuff_.readableList
              = c.readBuff_.readableList ++ s ∧
            (HttpConn.Read isET e0 evs c).1 = (s.length : Int)) ∧
    HttpConn.Read isET e0 (RdEv.err eINTR :: evs) c
      = HttpConn.Read isET eINTR evs c ∧
    (HttpConn.Read isET e0 (RdEv.err eAGAIN :: evs) c).1 = 0 ∧
    (HttpConn.Read isET e0 (RdEv.err eAGAIN :: evs) c).2.1 = eAGAIN ∧
    (HttpConn.Read isET e0 (RdEv.err eAGAIN :: evs) c).2.2 = c := by
  obtain ⟨h1, _h2, h3⟩ := readLoop_cases isET evs e0 0 c.readBuff_ hInv
  have heqIntr : readLoop isET e0 0 c.readBuff_ (RdEv.err eINTR :: evs)
      = readLoop isET eINTR 0 c.readBuff_ evs := by
    simp [readLoop, eINTR, eAGAIN, eWOULDBLOCK]
  have heqAg : readLoop isET e0 0 c.readBuff_ (RdEv.err eAGAIN :: evs)
      = ((0 : Int), eAGAIN, c.readBuff_) := by
    simp [readLoop, eAGAIN, eWOULDBLOCK]
  refine ⟨?_, ?_, ?_, ?_, ?_, ?_⟩
  · intro h
    obtain ⟨_, hb, ha, hw, hi⟩ := h1 h
    exact ⟨hb, ha, hw, hi⟩
  · intro h
    obtain ⟨s, hrd, hlen⟩ := h3 h
    rw [Nat.zero_add] at hlen
    exact ⟨s, hrd, hlen⟩
  · simp only [HttpConn.Read, heqIntr]
  · simp only [HttpConn.Read, heqAg]
  · simp only [HttpConn.Read, heqAg]
  · simp only [HttpConn.Read, heqAg]
/-- Connection with one readable byte and one free slot, for the C3
theorems. -/
def connC3 : HttpConn :=
  { fd_ := 8, isClose_ := false, isKeepAlive_ := false,
    method_ := [], path_ := [], version_ := [],
    readBuff_ := ⟨['x'], 0, 1⟩, writeBuff_ := ⟨[], 0, 0⟩,
    iovCnt_ := 0, iov0base := 0, iov0len := 0, iov1base := 0, iov1len := 0,
    file_ := none, fileStatSize := 0,
    userCount_ := 1, munmapCnt := 0, dbCalls := 0 }

/-- Witness for C3 at a concrete trace: one 1-byte read followed by a real
error (code 7) returns the positive total 1 and appends exactly that byte. -/
theorem read_behavior_witness :
    (HttpConn.Read true 0 [RdEv.data ['a'], RdEv.err 7] connC3).1 ≠ -1 ∧
    (∃ s, (HttpConn.Read true 0 [RdEv.data ['a'],
             RdEv.err 7] connC3).2.2.readBuff_.readableList
            = connC3.readBuff_.readableList ++ s ∧
          (HttpConn.Read true 0 [RdEv.data ['a'], RdEv.err 7] connC3).1
            = (s.length : Int)) :=
  ⟨by decide,
   (read_behavior true 0 [RdEv.data ['a'], RdEv.err 7] connC3
      (by decide)).2.1 (by decide)⟩

/-- C3 counterexample: an immediate end-of-file (`readv` returns 0) with the
caller's incoming `saveErrno = 0` makes `Read` return `-1` although no error
event occurred at all, refuting "returns -1 only if … a real error
occurred": `Buffer::ReadFd` does not write `errno` when `readv` returns 0,
so the stale value 0 fails the `EAGAIN`/`EINTR` tests and the zero-bytes
path returns `-1`. -/
theorem read_minus_one_without_error_cex :
    (HttpConn.Read true 0 [RdEv.data []] connC3).1 = -1 ∧
    hasRealError [RdEv.data []] = false := by decide

/-! HTTP parsing and response (src/src/httpconn.cpp, Process/MakeResponse_)
and the reactor's process hook (src/src/webserver.cpp, OnProcess_) -/

/-- Split at the first CRLF, modelling
`find("\r\n")` + `substr`: `some (line, rest)` has `line` = the bytes before
the first `"\r\n"` and `rest` = the bytes after it; `none` when no CRLF
occurs. -/
def takeLine : List Char → Option (List Char × List Char)
  | [] => none
  | ch :: rest =>
      if ch = '\r' ∧ rest.head? = some '\n' then some ([], rest.tail)
      else (takeLine rest).map fun p => (ch :: p.1, p.2)

theorem takeLine_rest_le :
    ∀ (l line rest : List Char),
      takeLine l = some (line, rest) → rest.length + 2 ≤ l.length := by
  intro l
  induction l with
  | nil =>
      intro line rest h
      simp [takeLine] at h
  | cons ch tl ih =>
      intro line rest h
      simp only [takeLine] at h
      by_cases hc : ch = '\r' ∧ tl.head? = some '\n'
      · rw [if_pos hc] at h
        injection h with hh
        injection hh with hh1 hh2
        subst hh2
        cases tl with
        | nil => simp at hc
        | cons c2 tl2 => simp
      · rw [if_neg hc] at h
        rw [Option.map_eq_some'] at h
        obtain ⟨q, hq, hpq⟩ := h
        injection hpq with hp1 hp2
        subst hp2
        have := ih q.1 q.2 hq
        simp only [List.length_cons]
        omega

/-- Split on a separator character (each `[^sep]*` regex group becomes one
part; a split into exactly k parts is a match of k groups joined by single
separators). -/
def splitOnChar (sep : Char) : List Char → List (List Char)
  | [] => [[]]
  | ch :: rest =>
      let r := splitOnChar sep rest
      if ch = sep then [] :: r
      else
        match r with
        | [] => [[ch]]
        | g :: gs => (ch :: g) :: gs

/-- The regex of `HttpConn::ParseRequestLine_`,
`^([^ ]*) ([^ ]*) HTTP/([^ ]*)$`: the line must split on single spaces into
exactly three space-free parts, the third starting with `HTTP/`; the groups
are (method, path, version). -/
def requestLineMatch (line : List Char) :
    Option (List Char × List Char × List Char) :=
  match splitOnChar ' ' line with
  | [m, p, t] =>
      if t.take 5 = "HTTP/".toList then some (m, p, t.drop 5) else none
  | _ => none

/-- Model of `HttpConn::ParseRequestLine_`: on a match store method/path/version,
mapping `/` to `/index.html`; else report failure. -/
def HttpConn.ParseRequestLine_ (line : List Char) (c : HttpConn) :
    Bool × HttpConn :=
  match requestLineMatch line with
  | some (m, p, v) =>
      (true, { c with method_ := m,
                      path_ := (if p = "/".toList then "/index.html".toList
                                else p),
                      version_ := v })
  | none => (false, c)

/-- Model of `HttpConn::ParseHeader_`: the regex `^([^:]*): ?(.*)$` — name is
everything before the first colon, value the remainder after one optional
leading space; only `Connection: keep-alive` is interpreted, all other
headers (and colon-free lines) are ignored. -/
def HttpConn.ParseHeader_ (line : List Char) (c : HttpConn) : HttpConn :=
  if line.indexOf ':' < line.length then
    let name := line.take (line.indexOf ':')
    let after := line.drop (line.indexOf ':' + 1)
    let value := if after.head? = some ' ' then after.tail else after
    if name = "Connection".toList ∧ value = "keep-alive".toList then
      { c with isKeepAlive_ := true }
    else c
  else c

/-- Model of `HttpConn::ParseBody_`: only `POST /login` touches the database pool
(observed through the `dbCalls` counter); nothing else happens. -/
def HttpConn.ParseBody_ (_line : List Char) (c : HttpConn) : HttpConn :=
  if c.method_ = "POST".toList ∧ c.path_ = "/login".toList then
    { c with dbCalls := c.dbCalls + 1 }
  else c

/-- The header loop of `HttpConn::Process`: repeatedly take a CRLF line;
an empty line ends the headers (the remainder is the body candidate); when
no CRLF remains the loop ends with the unconsumed remainder as body
candidate. -/
def parseHeaders (c : HttpConn) (s : List Char) : HttpConn × List Char :=
  match _htl : takeLine s with
  | none => (c, s)
  | some (line, rest) =>
      if line = [] then (c, rest)
      else parseHeaders (HttpConn.ParseHeader_ line c) rest
termination_by s.length
decreasing_by
  have := takeLine_rest_le s line rest _htl
  omega

/-- The `stat` view of one filesystem entry as `MakeResponse_` consumes it. -/
structure FileInfo where
  isDir : Bool
  size : Nat
  openOk : Bool
deriving DecidableEq, Repr

/-- Filesystem oracle: the `stat` result per absolute path (`none` = `stat`
fails). -/
def Fs : Type := List Char → Option FileInfo

/-- Model of `HttpConn::MakeResponse_`: resolve `srcDir_ + path_`; missing file or
directory gives a header-only 404 (single segment); otherwise build the 200
header, and on `open` failure replace it by a 403 (single segment); on
success record the mapping and point segment 0 at the header bytes and
segment 1 at the mapped file.  (As in the source, `iov_[1]` is left
untouched on the single-segment paths.) -/
def HttpConn.MakeResponse_ (fs : Fs) (srcDir : List Char) (c : HttpConn) :
    HttpConn :=
  match fs (srcDir ++ c.path_) with
  | none =>
      let wb := c.writeBuff_.Append
        ("HTTP/1.1 404 Not Found\r\nContent-Length: 0\r\n\r\n".toList)
      let c1 := { c with writeBuff_ := wb }
      { c1 with iov0base := c1.writeBuff_.readPos_,
                iov0len := c1.writeBuff_.ReadAbleBytes,
                iovCnt_ := 1 }
  | some fi =>
      let c0 := { c with fileStatSize := fi.size }
      if fi.isDir then
        let wb := c0.writeBuff_.Append
          ("HTTP/1.1 404 Not Found\r\nContent-Length: 0\r\n\r\n".toList)
        let c1 := { c0 with writeBuff_ := wb }
        { c1 with iov0base := c1.writeBuff_.readPos_,
                  iov0len := c1.writeBuff_.ReadAbleBytes,
                  iovCnt_ := 1 }
      else
        let hdr := "HTTP/1.1 200 OK\r\n".toList
          ++ (if c0.isKeepAlive_ then "Connection: keep-alive\r\n".toList
              else "Connection: close\r\n".toList)
          ++ "Content-Length: ".toList ++ (toString fi.size).toList
          ++ "\r\n\r\n".toList
        let c1 := { c0 with writeBuff_ := c0.writeBuff_.Append hdr }
        if fi.openOk then
          { c1 with file_ := some fi.size,
                    iov0base := c1.writeBuff_.readPos_,
                    iov0len := c1.writeBuff_.ReadAbleBytes,
                    iov1base := 0,
                    iov1len := fi.size,
                    iovCnt_ := 2 }
        else
          let wb2 := c1.writeBuff_.RetrieveAll.Append
            ("HTTP/1.1 403 Forbidden\r\n\r\n".toList)
          let c2 := { c1 with writeBuff_ := wb2 }
          { c2 with iov0base := c2.writeBuff_.readPos_,
                    iov0len := c2.writeBuff_.ReadAbleBytes,
                    iovCnt_ := 1 }

/-- Model of `HttpConn::Process`: nothing readable means `false`; otherwise consume
the whole input buffer, take the request line (incomplete line: `false`),
parse it (mismatch: `false`), run the header loop, hand a non-empty
remainder to the body handler, build the response, return `true`. -/
def HttpConn.Process (fs : Fs) (srcDir : List Char) (c : HttpConn) :
    Bool × HttpConn :=
  if c.readBuff_.ReadAbleBytes = 0 then (false, c)
  else
    let requestData := c.readBuff_.readableList
    let c0 := { c with readBuff_ := c.readBuff_.RetrieveAll }
    match takeLine requestData with
    | none => (false, c0)
    | some (requestLine, rest) =>
        match HttpConn.ParseRequestLine_ requestLine c0 with
        | (false, c1) => (false, c1)
        | (true, c1) =>
            let pr := parseHeaders c1 rest
            let c3 := if pr.2.length ≠ 0 then HttpConn.ParseBody_ pr.2 pr.1
                      else pr.1
            (true, HttpConn.MakeResponse_ fs srcDir c3)

/-- What a task asks the reactor to do with the descriptor afterwards. -/
inductive ReactorAction where
  | modFd (events : Nat)
  | closeConn
deriving DecidableEq, Repr

/-- Model of `WebServer::OnProcess_`: re-arm for write interest when `Process`
produced a response, else re-arm for read interest. -/
def OnProcess_ (fs : Fs) (srcDir : List Char) (c : HttpConn) :
    ReactorAction × HttpConn :=
  match HttpConn.Process fs srcDir c with
  | (true, c') => (ReactorAction.modFd (connEvent_ ||| ePOLLOUT), c')
  | (false, c') => (ReactorAction.modFd (connEvent_ ||| ePOLLIN), c')

/-- C5: whenever the buffered input contains a complete CRLF-terminated line
whose first line does not match `METHOD SP PATH SP HTTP/VERSION`, `Process`
returns `false`, appends nothing to the output buffer, nevertheless consumes
(discards) all currently buffered input bytes, and the reactor re-arms the
descriptor for read interest (`EPOLLIN`) instead of closing the
connection. -/
theorem malformed_request_line_behavior (fs : Fs) (srcDir : List Char)
    (c : HttpConn) (line rest : List Char)
    (hne : c.readBuff_.ReadAbleBytes ≠ 0)
    (hline : takeLine c.readBuff_.readableList = some (line, rest))
    (hbad : requestLineMatch line = none) :
    (HttpConn.Process fs srcDir c).1 = false ∧
    (HttpConn.Process fs srcDir c).2.writeBuff_ = c.writeBuff_ ∧
    (HttpConn.Process fs srcDir c).2.readBuff_.ReadAbleBytes = 0 ∧
    (OnProcess_ fs srcDir c).1 = ReactorAction.modFd (connEvent_ ||| ePOLLIN) ∧
    (OnProcess_ fs srcDir c).1 ≠ ReactorAction.closeConn := by
  have hP : HttpConn.Process fs srcDir c
      = (false, { c with readBuff_ := c.readBuff_.RetrieveAll }) := by
    unfold HttpConn.Process
    rw [if_neg hne]
    simp only [hline]
    unfold HttpConn.ParseRequestLine_
    simp only [hbad]
  refine ⟨?_, ?_, ?_, ?_, ?_⟩
  · rw [hP]
  · rw [hP]
  · rw [hP]
    simp [Buffer.RetrieveAll, Buffer.ReadAbleBytes]
  · unfold OnProcess_
    rw [hP]
  · unfold OnProcess_
    rw [hP]
    simp

/-- Filesystem with no entries at all. -/
def fsEmpty : Fs := fun _ => none

/-- Connection whose input buffer holds the malformed request
`GARBAGE\r\n\r\n`, for the C5 witness. -/
def connC5 : HttpConn :=
  { fd_ := 9, isClose_ := false, isKeepAlive_ := false,
    method_ := [], path_ := [], version_ := [],
    readBuff_ := ⟨"GARBAGE\r\n\r\n".toList, 0, 11⟩,
    writeBuff_ := ⟨[], 0, 0⟩,
    iovCnt_ := 0, iov0base := 0, iov0len := 0, iov1base := 0, iov1len := 0,
    file_ := none, fileStatSize := 0,
    userCount_ := 1, munmapCnt := 0, dbCalls := 0 }

/-- Witness for C5 at the concrete input `GARBAGE\r\n\r\n`. -/
theorem malformed_request_line_behavior_witness :
    (HttpConn.Process fsEmpty [] connC5).1 = false ∧
    (HttpConn.Process fsEmpty [] connC5).2.writeBuff_ = connC5.writeBuff_ ∧
    (HttpConn.Process fsEmpty [] connC5).2.readBuff_.ReadAbleBytes = 0 ∧
    (OnProcess_ fsEmpty [] connC5).1
      = ReactorAction.modFd (connEvent_ ||| ePOLLIN) ∧
    (OnProcess_ fsEmpty [] connC5).1 ≠ ReactorAction.closeConn :=
  malformed_request_line_behavior fsEmpty [] connC5
    ("GARBAGE".toList) ("\r\n".toList)
    (by decide) (by decide) (by decide)

/-! Claim C2: HttpConn::Write and WebServer::OnWrite_ -/

/-- One `writev` outcome: `ok len` (the kernel accepted `len` bytes; 0 means
nothing was written) or a failure with error code `e`. -/
inductive WrEv where
  | ok (len : Nat)
  | err (e : Nat)
deriving DecidableEq, Repr

/-- The loop of `HttpConn::Write(saveErrno)` over a trace of `writev`
outcomes: on failure break on `EAGAIN`/`EWOULDBLOCK` (returning the
accumulated non-negative count), retry on `EINTR`, return `-1` only when
nothing was written; on `writev == 0` break; otherwise accumulate, break if
the (pre-adjustment) segments were already empty, adjust the segments
(`writeStep`), and in level-triggered mode break under 10240 pending
bytes. -/
def writeLoop (isET : Bool) (errno acc : Nat) (c : HttpConn) :
    List WrEv → Int × Nat × HttpConn
  | [] => ((acc : Int), errno, c)
  | WrEv.err e :: evs =>
      if e = eAGAIN ∨ e = eWOULDBLOCK then ((acc : Int), e, c)
      else if e = eINTR then writeLoop isET e acc c evs
      else if acc = 0 then (-1, e, c)
      else ((acc : Int), e, c)
  | WrEv.ok len :: evs =>
      if len = 0 then ((acc : Int), errno, c)
      else
        if c.iov0len + c.iov1len = 0 then (((acc + len : Nat) : Int), errno, c)
        else
          let c' := c.writeStep len
          if ¬ isET ∧ c'.ToWriteBytes < 10240 then
            (((acc + len : Nat) : Int), errno, c')
          else writeLoop isET errno (acc + len) c' evs

/-- Model of `HttpConn::Write(saveErrno)`. -/
def HttpConn.Write (isET : Bool) (saveErrno : Nat) (evs : List WrEv)
    (c : HttpConn) : Int × Nat × HttpConn :=
  writeLoop isET saveErrno 0 c evs

/-- Model of `WebServer::OnWrite_`: run `Write` (the server always uses
edge-triggered mode and a zero-initialized `writeErrno`); if all segments
are drained and the connection is keep-alive, re-invoke request processing,
else fall through; if not drained and `Write` returned a negative count with
`writeErrno == EAGAIN`, re-arm for write interest; in every other case close
the connection. -/
def OnWrite_ (fs : Fs) (srcDir : List Char) (wevs : List WrEv)
    (c : HttpConn) : ReactorAction × HttpConn :=
  let r := HttpConn.Write true 0 wevs c
  if r.2.2.ToWriteBytes = 0 then
    if r.2.2.isKeepAlive_ then OnProcess_ fs srcDir r.2.2
    else (ReactorAction.closeConn, r.2.2.Close)
  else if r.1 < 0 ∧ r.2.1 = eAGAIN then
    (ReactorAction.modFd (connEvent_ ||| ePOLLOUT), r.2.2)
  else (ReactorAction.closeConn, r.2.2.Close)

/-- Keep-alive connection with 5 pending header bytes, hitting immediate
`EAGAIN` backpressure. -/
def connC2 : HttpConn :=
  { fd_ := 10, isClose_ := false, isKeepAlive_ := true,
    method_ := [], path_ := [], version_ := [],
    readBuff_ := ⟨[], 0, 0⟩,
    writeBuff_ := ⟨"HTTP/".toList, 0, 5⟩,
    iovCnt_ := 1, iov0base := 0, iov0len := 5, iov1base := 0, iov1len := 0,
    file_ := none, fileStatSize := 0,
    userCount_ := 1, munmapCnt := 0, dbCalls := 0 }

/-- C2 evaluated at the failing input (code bug): a write blocked by
`EAGAIN` makes `Write` set `saveErrno = EAGAIN` but return the accumulated
count 0 (not a negative value), so with bytes still pending `OnWrite_`'s
re-arm guard `ret < 0 && writeErrno == EAGAIN` is false and the connection
is CLOSED instead of being re-armed for write interest as the claim (and
the code's own comment) state. -/
theorem onwrite_eagain_closes_connection :
    (HttpConn.Write true 0 [WrEv.err eAGAIN] connC2).2.1 = eAGAIN ∧
    (HttpConn.Write true 0 [WrEv.err eAGAIN] connC2).1 = 0 ∧
    (HttpConn.Write true 0 [WrEv.err eAGAIN] connC2).2.2.ToWriteBytes ≠ 0 ∧
    (OnWrite_ fsEmpty [] [WrEv.err eAGAIN] connC2).1
      = ReactorAction.closeConn ∧
    (OnWrite_ fsEmpty [] [WrEv.err eAGAIN] connC2).1
      ≠ ReactorAction.modFd (connEvent_ ||| ePOLLOUT) := by decide

/-! Claim C10: SqlConnPool conservation (src/src/sqlconnpool.cpp) -/

/-- The pool state: FIFO queue of free handles (handles are opaque ids),
the `freeCount_`/`useCount_` `int` counters, the configured size and the
counting semaphore's value. -/
structure SqlConnPool where
  connQue_ : List Nat
  useCount_ : Int
  freeCount_ : Int
  MAX_CONN_ : Nat
  sem : Nat
deriving DecidableEq, Repr

/-- Model of `SqlConnPool::Init(..., connSize)`: create `connSize` handles (ids
`0..connSize-1`), queue them all, set `freeCount_ = connSize`,
`useCount_ = 0`, and initialize the semaphore to `connSize`. -/
def SqlConnPool.Init (connSize : Nat) : SqlConnPool :=
  { connQue_ := List.range connSize,
    useCount_ := 0,
    freeCount_ := connSize,
    MAX_CONN_ := connSize,
    sem := connSize }

/-- Model of `SqlConnPool::GetConn()`: `sem_wait` (blocks — modelled as `none` — when
the semaphore is 0), then pop the queue front, `--freeCount_`,
`++useCount_`.  Popping an empty queue is undefined behaviour in the
source; it is also `none` here and unreachable under the pool invariant. -/
def SqlConnPool.GetConn (p : SqlConnPool) : Option (Nat × SqlConnPool) :=
  match p.sem, p.connQue_ with
  | 0, _ => none
  | Nat.succ _, [] => none
  | Nat.succ s, h :: t =>
      some (h, { p with connQue_ := t,
                        freeCount_ := p.freeCount_ - 1,
                        useCount_ := p.useCount_ + 1,
                        sem := s })

/-- Model of `SqlConnPool::FreeConn(sql)`: push the handle back, `++freeCount_`,
`--useCount_`, `sem_post`. -/
def SqlConnPool.FreeConn (h : Nat) (p : SqlConnPool) : SqlConnPool :=
  { p with connQue_ := p.connQue_ ++ [h],
           freeCount_ := p.freeCount_ + 1,
           useCount_ := p.useCount_ - 1,
           sem := p.sem + 1 }

/-- Model of `SqlConnPool::GetFreeConnCount()`: the queue length. -/
def SqlConnPool.GetFreeConnCount (p : SqlConnPool) : Nat :=
  p.connQue_.length

/-- A sequential pool operation. -/
inductive PoolOp where
  | get
  | free (h : Nat)
deriving DecidableEq, Repr

/-- Run a sequence of sequential pool operations, tracking the multiset of
checked-out handles; `none` when a `get` would block (or meet an impossible
empty queue) or a `free` returns a handle that is not checked out. -/
def runPoolOps : List PoolOp → SqlConnPool × List Nat →
    Option (SqlConnPool × List Nat)
  | [], st => some st
  | PoolOp.get :: ops, (p, out) =>
      match p.GetConn with
      | none => none
      | some (h, p') => runPoolOps ops (p', h :: out)
  | PoolOp.free h :: ops, (p, out) =>
      if h ∈ out then runPoolOps ops (p.FreeConn h, out.erase h)
      else none

/-- The conservation invariant of claim C10, relative to the pool size `n`
and the list `out` of checked-out handles. -/
def PoolInv (n : Nat) (p : SqlConnPool) (out : List Nat) : Prop :=
  p.freeCount_ = (p.connQue_.length : Int) ∧
  p.useCount_ = (out.length : Int) ∧
  p.connQue_.length + out.length = n ∧
  p.sem = p.connQue_.length

instance (n : Nat) (p : SqlConnPool) (out : List Nat) :
    Decidable (PoolInv n p out) := by
  unfold PoolInv; infer_instance

theorem getConn_effect (q : SqlConnPool) (h : Nat) (q' : SqlConnPool)
    (hg : q.GetConn = some (h, q')) :
    q'.freeCount_ = q.freeCount_ - 1 ∧
    q'.useCount_ = q.useCount_ + 1 ∧
    q'.connQue_.length + 1 = q.connQue_.length ∧
    q'.sem + 1 = q.sem ∧
    (SqlConnPool.FreeConn h q').freeCount_ = q.freeCount_ ∧
    (SqlConnPool.FreeConn h q').GetFreeConnCount = q.GetFreeConnCount := by
  unfold SqlConnPool.GetConn at hg
  match hs : q.sem, hq : q.connQue_ with
  | 0, _ =>
      rw [hs] at hg
      exact absurd hg (by simp)
  | Nat.succ s, [] =>
      rw [hs, hq] at hg
      exact absurd hg (by simp)
  | Nat.succ s, h0 :: t =>
      rw [hs, hq] at hg
      simp only [Option.some.injEq, Prod.mk.injEq] at hg
      obtain ⟨hh, hq'⟩ := hg
      subst hq'
      refine ⟨rfl, rfl, ?_, ?_, ?_, ?_⟩
      · simp [hq]
      · simp [hs]
      · simp [SqlConnPool.FreeConn]
      · simp [SqlConnPool.FreeConn, SqlConnPool.GetFreeConnCount, hq]

theorem runPoolOps_inv (n : Nat) (ops : List PoolOp) :
    ∀ (p : SqlConnPool) (out : List Nat) (p' : SqlConnPool)
      (out' : List Nat),
      runPoolOps ops (p, out) = some (p', out') → PoolInv n p out →
      PoolInv n p' out' := by
  induction ops with
  | nil =>
      intro p out p' out' hrun hinv
      simp only [runPoolOps, Option.some.injEq, Prod.mk.injEq] at hrun
      obtain ⟨h1, h2⟩ := hrun
      subst h1
      subst h2
      exact hinv
  | cons op ops ih =>
      intro p out p' out' hrun hinv
      obtain ⟨hfree, huse, htot, hsem⟩ := hinv
      cases op with
      | get =>
          simp only [runPoolOps] at hrun
          match hg : p.GetConn with
          | none => rw [hg] at hrun; exact absurd hrun (by simp)
          | some (h, pmid) =>
              rw [hg] at hrun
              obtain ⟨e1, e2, e3, e4, _, _⟩ := getConn_effect p h pmid hg
              refine ih pmid (h :: out) p' out' hrun ⟨?_, ?_, ?_, ?_⟩
              · rw [e1, hfree]
                omega
              · rw [e2, huse]
                simp only [List.length_cons]
                omega
              · simp only [List.length_cons]
                omega
              · omega
      | free h =>
          simp only [runPoolOps] at hrun
          by_cases hmem : h ∈ out
          · rw [if_pos hmem] at hrun
            have herase : (out.erase h).length + 1 = out.length := by
              rw [List.length_erase_of_mem hmem]
              have : out ≠ [] := List.ne_nil_of_mem hmem
              cases out with
              | nil => exact absurd rfl this
              | cons a l => simp
            refine ih (p.FreeConn h) (out.erase h) p' out' hrun
              ⟨?_, ?_, ?_, ?_⟩
            · simp only [SqlConnPool.FreeConn, List.length_append,
                List.length_cons, List.length_nil]
              rw [hfree]
              push_cast
              ring
            · simp only [SqlConnPool.FreeConn]
              rw [huse]
              omega
            · simp only [SqlConnPool.FreeConn, List.length_append,
                List.length_cons, List.length_nil]
              omega
            · simp only [SqlConnPool.FreeConn, List.length_append,
                List.length_cons, List.length_nil]
              omega
          · rw [if_neg hmem] at hrun
            exact absurd hrun (by simp)

/-- C10: the pool conserves its handles under sequential use — after
`Init(n)` the free count is `n`; after every valid sequence of
`GetConn`/`FreeConn` operations from that state, `freeCount_` equals the
number of queued handles, `useCount_` equals the number of checked-out
handles, queued + checked-out = `n`, and the semaphore mirrors the queue;
moreover each successful `GetConn` yields a handle while decreasing the free
count by exactly one, and `FreeConn` of that handle restores both the free
count and the free-queue length. -/
theorem pool_conservation (n : Nat) (ops : List PoolOp) (p : SqlConnPool)
    (out : List Nat)
    (hrun : runPoolOps ops (SqlConnPool.Init n, []) = some (p, out)) :
    ((SqlConnPool.Init n).freeCount_ = (n : Int) ∧
     (SqlConnPool.Init n).GetFreeConnCount = n) ∧
    (p.freeCount_ = (p.connQue_.length : Int) ∧
     p.useCount_ = (out.length : Int) ∧
     p.connQue_.length + out.length = n ∧
     p.sem = p.connQue_.length) ∧
    (∀ (q : SqlConnPool) (h : Nat) (q' : SqlConnPool),
      q.GetConn = some (h, q') →
      q'.freeCount_ = q.freeCount_ - 1 ∧
      (SqlConnPool.FreeConn h q').freeCount_ = q.freeCount_ ∧
      (SqlConnPool.FreeConn h q').GetFreeConnCount = q.GetFreeConnCount) := by
  refine ⟨⟨by simp [SqlConnPool.Init], by simp [SqlConnPool.Init,
    SqlConnPool.GetFreeConnCount]⟩, ?_, ?_⟩
  · have hinv0 : PoolInv n (SqlConnPool.Init n) [] := by
      refine ⟨?_, ?_, ?_, ?_⟩ <;>
        simp [SqlConnPool.Init]
    exact runPoolOps_inv n ops (SqlConnPool.Init n) [] p out hrun hinv0
  · intro q h q' hg
    obtain ⟨e1, _, _, _, e5, e6⟩ := getConn_effect q h q' hg
    exact ⟨e1, e5, e6⟩

/-- The pool state reached by `get; free 0; get` from `Init 2`. -/
def poolC10 : SqlConnPool :=
  { connQue_ := [0], useCount_ := 1, freeCount_ := 1, MAX_CONN_ := 2,
    sem := 1 }

/-- Witness for C10: running `get; free 0; get` from a 2-handle pool leaves
one free and one checked-out handle, and the counters agree. -/
theorem pool_conservation_witness :
    runPoolOps [PoolOp.get, PoolOp.free 0, PoolOp.get]
      (SqlConnPool.Init 2, []) = some (poolC10, [1]) ∧
    (poolC10.freeCount_ = (poolC10.connQue_.length : Int) ∧
     poolC10.connQue_.length + [1].length = 2) :=
  ⟨by decide,
   ⟨(pool_conservation 2 [PoolOp.get, PoolOp.free 0, PoolOp.get] poolC10 [1]
       (by decide)).2.1.1,
    (pool_conservation 2 [PoolOp.get, PoolOp.free 0, PoolOp.get] poolC10 [1]
       (by decide)).2.1.2.2.1⟩⟩
